import Mathlib

/-
Verification of the structured-document addressing and merge engine of a
federated GraphQL router (source file: apollo-router/src/json_ext.rs).

The JSON value model, the path model and every operation the theorems below
talk about are shallowly embedded from the Rust source: serde_json values
become the inductive `Value` (objects are insertion-ordered association
lists, mirroring the order-preserving Map used by the source), `usize`
becomes `Nat` with explicit bounds `2 ^ 64` where overflow matters, and
fallible or panicking code returns an explicit result type.
-/

namespace JsonExt

/-- The JSON document tree (`serde_json_bytes::Value`).  Numbers are modelled
as integers (the claims under study only exercise integral numbers); objects
are insertion-ordered association lists, mirroring the order-preserving map
type used by the source. -/
inductive Value where
  | null
  | bool (b : Bool)
  | num (n : Int)
  | str (s : String)
  | arr (elems : List Value)
  | obj (fields : List (String × Value))

/-- A path element (`PathElement` in json_ext.rs, lines 370-383): `Flatten`,
`Index(usize)` or `Key(String)`. -/
inductive PathElement where
  | flatten
  | index (i : Nat)
  | key (k : String)
deriving DecidableEq

/-- The error raised by path-guided mutation
(`FetchError::ExecutionPathNotFound`, the "PathConflict" kind of the spec). -/
inductive FetchError where
  | executionPathNotFound (reason : String)

/-- Outcome of `ValueExt::insert`: success with the mutated root, a
`FetchError`, or a Rust panic (the `.expect(...)` calls in the source). -/
inductive InsertResult where
  | ok (root : Value)
  | err (e : FetchError)
  | panicked

/-- Big-endian decimal value of a digit string (the accumulator loop inside
Rust's `from_str_radix` for radix 10). -/
def digitsVal (ds : List Char) : Nat :=
  ds.foldl (fun acc c => acc * 10 + (c.toNat - 48)) 0

/-- The digit loop of Rust's `from_str_radix` for radix 10: the remaining
characters after the optional sign must be one or more ASCII digits and the
accumulated value must fit in a 64-bit `usize` (overflow errors out). -/
def parseUsizeDigits (ds : List Char) : Option Nat :=
  if ds = [] then none
  else if ds.all Char.isDigit then
    if digitsVal ds < 2 ^ 64 then some (digitsVal ds) else none
  else none

/-- Embeds `str::parse::<usize>()` (Rust `from_str_radix(s, 10)` on an
unsigned 64-bit integer): an optional leading '+', then one or more ASCII
digits, with the value required to fit in a `usize`; anything else fails. -/
def parseUsize (s : String) : Option Nat :=
  match s.data with
  | [] => none
  | c :: rest => parseUsizeDigits (if c = '+' then rest else c :: rest)

/-- The per-segment classification shared by `Path::from_slice`
(json_ext.rs lines 432-447) and `impl From<T> for Path` (lines 488-508):
try `parse::<usize>()` first, then compare with "@", else a key. -/
def segmentToElement (s : String) : PathElement :=
  match parseUsize s with
  | some n => .index n
  | none => if s = "@" then .flatten else .key s

/-- Rust's `str::split(sep)` on a character list: the list of (possibly
empty) chunks between separators.  `split` always yields at least one
chunk; splitting the empty string yields one empty chunk. -/
def splitChars (sep : Char) : List Char → List (List Char)
  | [] => [[]]
  | c :: cs =>
    let r := splitChars sep cs
    if c = sep then [] :: r else (c :: r.headD []) :: r.tail

/-- Embeds `impl<T: AsRef<str>> From<T> for Path` (json_ext.rs lines
488-508): split on '/', classify each segment. -/
def pathFromString (s : String) : List PathElement :=
  (splitChars '/' s.data).map (fun cs => segmentToElement (String.mk cs))

/-- Embeds `Path::from_slice` (json_ext.rs lines 432-447): classify each
pre-tokenized segment, without splitting. -/
def pathFromSlice (segments : List String) : List PathElement :=
  segments.map segmentToElement

/-- Fuel-driven big-endian decimal rendering of a natural number (the
digits of Rust's `Display` for unsigned integers). -/
def toDecimalCore : Nat → Nat → List Char → List Char
  | 0, _, acc => acc
  | fuel + 1, n, acc =>
    let d := Nat.digitChar (n % 10)
    if n < 10 then d :: acc else toDecimalCore fuel (n / 10) (d :: acc)

/-- Embeds `usize::to_string()` / `write!(f, "{}", index)`: standard decimal
rendering. -/
def usizeToString (n : Nat) : String := String.mk (toDecimalCore (n + 1) n [])

/-- Rendering of one path element inside `impl fmt::Display for Path`
(json_ext.rs lines 510-522): the index as decimal, the key verbatim,
`Flatten` as "@".  The Display loop writes a '/' before each element;
see `pathToString`. -/
def elementToString : PathElement → String
  | .index i => usizeToString i
  | .key k => k
  | .flatten => "@"

/-- Embeds `impl fmt::Display for Path` (json_ext.rs lines 510-522): for
each element write "/" and then the element's rendering. -/
def pathToString : List PathElement → String
  | [] => ""
  | e :: rest => "/" ++ elementToString e ++ pathToString rest

/-- Embeds `Value::as_array` (returns the element list of an `Array`). -/
def asArray : Value → Option (List Value)
  | .arr xs => some xs
  | _ => none

/-- Embeds `Value::is_null`. -/
def isNull : Value → Bool
  | .null => true
  | _ => false

/-- Embeds `Value::is_array`. -/
def isArrayV : Value → Bool
  | .arr _ => true
  | _ => false

/-- Embeds `Map::get` on the insertion-ordered object representation. -/
def lookupVal : List (String × Value) → String → Option Value
  | [], _ => none
  | (k', w) :: tl, k => if k' = k then some w else lookupVal tl k

/-- Replaces the value stored at the first occurrence of key `k` (the
write-back of a `get_mut` cursor obtained on an object entry). -/
def objReplace : List (String × Value) → String → Value → List (String × Value)
  | [], _, _ => []
  | (k', w) :: tl, k, v => if k' = k then (k', v) :: tl else (k', w) :: objReplace tl k v

/-- Embeds `ValueExt::insert` (json_ext.rs lines 241-314).  The mutable
cursor walk is turned into recursion that rebuilds the tree: on success the
rewritten root is returned.  The `.expect(...)` on `o.get_mut(k)` in the
`Key`/`Object` branch (line 288-290) panics when the key is absent; this is
modelled by `InsertResult.panicked`. -/
def insert (self : Value) (path : List PathElement) (value : Value) : InsertResult :=
  match path with
  | [] => .ok value
  | .flatten :: rest =>
    if isNull self then insert (.arr []) rest value
    else if !(isArrayV self) then .err (.executionPathNotFound "expected an array")
    else insert self rest value
  | .index i :: rest =>
    match self with
    | .arr a =>
      let a2 := a ++ List.replicate (i + 1 - a.length) Value.null
      match insert (a2.getD i .null) rest value with
      | .ok v => .ok (.arr (a2.set i v))
      | e => e
    | .null =>
      let a2 := List.replicate (i + 1) Value.null
      match insert (a2.getD i .null) rest value with
      | .ok v => .ok (.arr (a2.set i v))
      | e => e
    | _ => .err (.executionPathNotFound "expected an array")
  | .key k :: rest =>
    match self with
    | .obj o =>
      match lookupVal o k with
      | some w =>
        match insert w rest value with
        | .ok v => .ok (.obj (objReplace o k v))
        | e => e
      | none => .panicked
    | .null =>
      match insert .null rest value with
      | .ok v => .ok (.obj [(k, v)])
      | e => e
    | _ => .err (.executionPathNotFound "expected an object")

/-- Embeds the loop body of `ValueExt::from_path` (json_ext.rs lines
184-237) relative to the subtree under the mutable cursor: the returned
value is the subtree that replaces `current`.  `PathElement::Flatten`
returns the accumulated result immediately (line 191-193), i.e. leaves the
current subtree as it is; the `unreachable!` arm for an `Index` element on a
non-array non-null node is modelled by `none`. -/
def fromPathGo (current : Value) (path : List PathElement) (leaf : Value) : Option Value :=
  match path with
  | [] => some leaf
  | .flatten :: _ => some current
  | .index i :: rest =>
    match current with
    | .arr a =>
      let a2 := a ++ List.replicate (i + 1) Value.null
      (fromPathGo (a2.getD i .null) rest leaf).map (fun v => .arr (a2.set i v))
    | .null =>
      let a2 := List.replicate (i + 1) Value.null
      (fromPathGo (a2.getD i .null) rest leaf).map (fun v => .arr (a2.set i v))
    | _ => none
  | .key k :: rest =>
    (fromPathGo .null rest leaf).map (fun v => .obj [(k, v)])

/-- Embeds `ValueExt::from_path` (sparse construction, `build` in the
spec): start from a `Null` root and walk the path. -/
def fromPath (path : List PathElement) (value : Value) : Option Value :=
  fromPathGo .null path value

/-- Embeds `iterate_path` (json_ext.rs lines 325-363).  The callback is
modelled by returning the list of (resolved path, value) pairs in the order
the callback would be invoked.  Note that both the `Flatten` and `Key`
branches extend the resolved path via `Path::from` on a string (lines 335
and 358), i.e. the appended elements are the result of re-parsing the
rendered segment. -/
def iteratePath (parent : List PathElement) (path : List PathElement) (data : Value) :
    List (List PathElement × Value) :=
  match path with
  | [] => [(parent, data)]
  | .flatten :: rest =>
    match asArray data with
    | some xs =>
      xs.enum.flatMap (fun iv =>
        iteratePath (parent ++ pathFromString (usizeToString iv.fst)) rest iv.snd)
    | none => []
  | .index i :: rest =>
    match data with
    | .arr a =>
      match a.get? i with
      | some value => iteratePath (parent ++ pathFromString (usizeToString i)) rest value
      | none => []
    | _ => []
  | .key k :: rest =>
    match data with
    | .obj o =>
      match lookupVal o k with
      | some value => iteratePath (parent ++ pathFromString k) rest value
      | none => []
    | _ => []

/-- Embeds `ValueExt::select_values_and_paths` (json_ext.rs lines 316-323):
start `iterate_path` with an empty resolved path.  The traversal is a total
function: it never fails. -/
def selectValuesAndPaths (data : Value) (path : List PathElement) :
    List (List PathElement × Value) :=
  iteratePath [] path data

mutual

/-- Embeds `ValueExt::deep_merge` (json_ext.rs lines 83-117).  The
`failfast_debug!` diagnostic in the Object×Array / Array×Object arms is not
part of src/; modelled from the spec: it is a non-fatal integrity warning,
i.e. a no-op on the value, and `self` is left unchanged. -/
def deepMerge : Value → Value → Value
  | .obj a, .obj b => .obj (mergeEntries a b)
  | .arr a, .arr b => .arr (mergeElems a b)
  | v, .null => v
  | .obj a, .arr _ => .obj a
  | .arr a, .obj _ => .arr a
  | _, b => b

/-- The Object×Object loop of `deep_merge`: fold `other`'s entries into
`self` via the entry API (occupied entries are merged in place, vacant ones
appended at the end). -/
def mergeEntries : List (String × Value) → List (String × Value) → List (String × Value)
  | a, [] => a
  | a, (k, v) :: rest => mergeEntries (insertEntry a k v) rest

/-- One step of the entry API: `Entry::Occupied` merges into the existing
value in place, `Entry::Vacant` appends the new entry at the end. -/
def insertEntry : List (String × Value) → String → Value → List (String × Value)
  | [], k, v => [(k, v)]
  | (k', w) :: tl, k, v =>
    if k' = k then (k', deepMerge w v) :: tl else (k', w) :: insertEntry tl k v

/-- The Array×Array loop of `deep_merge`: merge the common prefix
element-wise, keep `self`'s overflow in place, append `other`'s overflow. -/
def mergeElems : List Value → List Value → List Value
  | a, [] => a
  | [], b => b
  | a :: as, b :: bs => deepMerge a b :: mergeElems as bs

end

mutual

/-- Embeds `==` on `serde_json_bytes::Value`: numbers by value, arrays
pointwise, and objects as order-insensitive maps (equal lengths and every
entry of the left map present with an equal value in the right map, which
is `IndexMap::eq`). -/
def valueEq : Value → Value → Bool
  | .null, .null => true
  | .bool a, .bool b => a == b
  | .num a, .num b => a == b
  | .str a, .str b => a == b
  | .arr a, .arr b => arrEq a b
  | .obj a, .obj b => a.length == b.length && objIncl a b
  | _, _ => false

/-- Pointwise array equality for `valueEq`. -/
def arrEq : List Value → List Value → Bool
  | [], [] => true
  | a :: as, b :: bs => valueEq a b && arrEq as bs
  | _, _ => false

/-- Map inclusion for `valueEq`: every entry of the first list is present
(by key lookup) in the second with an equal value. -/
def objIncl : List (String × Value) → List (String × Value) → Bool
  | [], _ => true
  | (k, v) :: rest, b =>
    (match lookupVal b k with
     | some w => valueEq v w
     | none => false) && objIncl rest b

end

mutual

/-- Embeds `ValueExt::eq_and_ordered` (json_ext.rs lines 119-157):
structural equality that additionally requires identical field order in
objects; non-container (and mixed-shape) pairs fall back to `==`. -/
def eqAndOrdered : Value → Value → Bool
  | .obj a, .obj b => entriesOrdEq a b
  | .arr a, .arr b => elemsOrdEq a b
  | a, b => valueEq a b

/-- The object loop of `eq_and_ordered`: both iterators must agree on the
field name and the value at every position and end together. -/
def entriesOrdEq : List (String × Value) → List (String × Value) → Bool
  | [], [] => true
  | (k, v) :: as, (k', v') :: bs => k == k' && eqAndOrdered v v' && entriesOrdEq as bs
  | _, _ => false

/-- The array loop of `eq_and_ordered`. -/
def elemsOrdEq : List Value → List Value → Bool
  | [], [] => true
  | a :: as, b :: bs => eqAndOrdered a b && elemsOrdEq as bs
  | _, _ => false

end

/-- Key uniqueness of an object key list. -/
def distinctKeys : List String → Bool
  | [] => true
  | k :: ks => !(ks.contains k) && distinctKeys ks

mutual

/-- The representation invariant the Rust `Map` type guarantees by
construction: object key lists never contain duplicates (recursively). -/
def wellFormed : Value → Bool
  | .obj fields => distinctKeys (fields.map Prod.fst) && wfFields fields
  | .arr xs => wfList xs
  | _ => true

/-- `wellFormed` on every element of an array. -/
def wfList : List Value → Bool
  | [] => true
  | v :: vs => wellFormed v && wfList vs

/-- `wellFormed` on every value of an object. -/
def wfFields : List (String × Value) → Bool
  | [] => true
  | (_, v) :: rest => wellFormed v && wfFields rest

end

/-- The regular expression `^[0-9]+$` of the claim: a nonempty string of
ASCII digits. -/
def matchesDigitsOnly (s : String) : Bool :=
  !s.data.isEmpty && s.data.all Char.isDigit

/-- Stated from the spec of Rust's unsigned integer parsing, for the
amended claims: `s` denotes the usize numeral `n` when, after an optional
leading '+', it consists of one or more ASCII digits whose decimal value is
`n`, and `n` fits in 64 bits. -/
def usizeNumeral (s : String) (n : Nat) : Prop :=
  ∃ ds, (s.data = ds ∨ s.data = '+' :: ds) ∧ ds ≠ [] ∧
    (∀ c ∈ ds, c.isDigit = true) ∧ digitsVal ds = n ∧ n < 2 ^ 64

/-- Plain path elements in the sense of the amended round-trip claim: an
`Index` that fits in a usize, or a `Key` whose text contains no '/', does
not parse as a usize and is not "@"; `Flatten` is excluded. -/
def elemPlain : PathElement → Prop
  | .key k => (∀ c ∈ k.data, c ≠ '/') ∧ parseUsize k = none ∧ k ≠ "@"
  | .index i => i < 2 ^ 64
  | .flatten => False

instance : DecidablePred elemPlain := fun e =>
  match e with
  | .key k => inferInstanceAs (Decidable ((∀ c ∈ k.data, c ≠ '/') ∧ parseUsize k = none ∧ k ≠ "@"))
  | .index i => inferInstanceAs (Decidable (i < 2 ^ 64))
  | .flatten => inferInstanceAs (Decidable False)

end JsonExt

namespace JsonExt

theorem digitChar_isDigit (d : Nat) (h : d < 10) : (Nat.digitChar d).isDigit = true := by
  interval_cases d <;> decide

theorem digitChar_toNat (d : Nat) (h : d < 10) : (Nat.digitChar d).toNat - 48 = d := by
  interval_cases d <;> decide

theorem toDecimalCore_acc (fuel : Nat) :
    ∀ n acc, n < fuel → toDecimalCore fuel n acc = toDecimalCore fuel n [] ++ acc := by
  induction fuel with
  | zero => intro n acc h; exact absurd h (Nat.not_lt_zero n)
  | succ f ih =>
    intro n acc h
    by_cases h10 : n < 10
    · simp [toDecimalCore, h10]
    · have hrec : n / 10 < f := by
        have := Nat.div_lt_self (by omega : 0 < n) (by omega : 1 < 10)
        omega
      simp only [toDecimalCore, if_neg h10]
      rw [ih _ _ hrec, ih _ [Nat.digitChar (n % 10)] hrec]
      simp

theorem toDecimalCore_isDigit (fuel : Nat) :
    ∀ n c, n < fuel → c ∈ toDecimalCore fuel n [] → c.isDigit = true := by
  induction fuel with
  | zero => intro n c h; exact absurd h (Nat.not_lt_zero n)
  | succ f ih =>
    intro n c h hc
    by_cases h10 : n < 10
    · simp [toDecimalCore, h10] at hc
      subst hc
      exact digitChar_isDigit _ (by omega)
    · have hrec : n / 10 < f := by
        have := Nat.div_lt_self (by omega : 0 < n) (by omega : 1 < 10)
        omega
      simp only [toDecimalCore, if_neg h10] at hc
      rw [toDecimalCore_acc f _ _ hrec] at hc
      rcases List.mem_append.mp hc with hm | hm
      · exact ih _ _ hrec hm
      · simp at hm
        subst hm
        exact digitChar_isDigit _ (by omega)

theorem toDecimalCore_ne_nil (fuel : Nat) :
    ∀ n, n < fuel → toDecimalCore fuel n [] ≠ [] := by
  induction fuel with
  | zero => intro n h; exact absurd h (Nat.not_lt_zero n)
  | succ f ih =>
    intro n h
    by_cases h10 : n < 10
    · simp [toDecimalCore, h10]
    · have hrec : n / 10 < f := by
        have := Nat.div_lt_self (by omega : 0 < n) (by omega : 1 < 10)
        omega
      simp only [toDecimalCore, if_neg h10]
      rw [toDecimalCore_acc f _ _ hrec]
      simp

theorem digitsVal_append_singleton (l : List Char) (c : Char) :
    digitsVal (l ++ [c]) = digitsVal l * 10 + (c.toNat - 48) := by
  simp [digitsVal, List.foldl_append]

theorem digitsVal_toDecimalCore (fuel : Nat) :
    ∀ n, n < fuel → digitsVal (toDecimalCore fuel n []) = n := by
  induction fuel with
  | zero => intro n h; exact absurd h (Nat.not_lt_zero n)
  | succ f ih =>
    intro n h
    by_cases h10 : n < 10
    · have : n % 10 = n := Nat.mod_eq_of_lt h10
      simp [toDecimalCore, h10, digitsVal, this, digitChar_toNat n h10]
    · have hrec : n / 10 < f := by
        have := Nat.div_lt_self (by omega : 0 < n) (by omega : 1 < 10)
        omega
      simp only [toDecimalCore, if_neg h10]
      rw [toDecimalCore_acc f _ _ hrec, digitsVal_append_singleton, ih _ hrec,
        digitChar_toNat _ (Nat.mod_lt n (by omega))]
      omega

theorem usizeToString_data (n : Nat) :
    (usizeToString n).data = toDecimalCore (n + 1) n [] := rfl

theorem usizeToString_isDigit (n : Nat) (c : Char) (hc : c ∈ (usizeToString n).data) :
    c.isDigit = true :=
  toDecimalCore_isDigit (n + 1) n c (Nat.lt_succ_self n) hc

theorem usizeToString_ne_nil (n : Nat) : (usizeToString n).data ≠ [] :=
  toDecimalCore_ne_nil (n + 1) n (Nat.lt_succ_self n)

theorem digitsVal_usizeToString (n : Nat) : digitsVal (usizeToString n).data = n :=
  digitsVal_toDecimalCore (n + 1) n (Nat.lt_succ_self n)

theorem isDigit_ne_plus {c : Char} (h : c.isDigit = true) : c ≠ '+' := by
  intro he
  rw [he] at h
  exact absurd h (by decide)

theorem parseUsizeDigits_eq_some_iff (ds : List Char) (n : Nat) :
    parseUsizeDigits ds = some n ↔
      ds ≠ [] ∧ (∀ c ∈ ds, c.isDigit = true) ∧ digitsVal ds = n ∧ n < 2 ^ 64 := by
  unfold parseUsizeDigits
  split_ifs with h1 h2 h3
  · simp [h1]
  · simp only [Option.some.injEq]
    constructor
    · intro hv
      exact ⟨h1, List.all_eq_true.mp h2, hv, hv ▸ h3⟩
    · rintro ⟨_, _, hval, _⟩
      exact hval
  · constructor
    · intro h
      simp at h
    · rintro ⟨_, _, hval, hlt⟩
      exact absurd (hval ▸ hlt) h3
  · constructor
    · intro h
      simp at h
    · rintro ⟨_, hdig, _, _⟩
      exact absurd (List.all_eq_true.mpr hdig) h2

theorem parseUsize_usizeToString (n : Nat) (h : n < 2 ^ 64) :
    parseUsize (usizeToString n) = some n := by
  unfold parseUsize
  cases hd : (usizeToString n).data with
  | nil => exact absurd hd (usizeToString_ne_nil n)
  | cons c rest =>
    have hc : c.isDigit = true :=
      usizeToString_isDigit n c (by rw [hd]; exact List.mem_cons_self c rest)
    show parseUsizeDigits (if c = '+' then rest else c :: rest) = some n
    rw [if_neg (isDigit_ne_plus hc)]
    rw [parseUsizeDigits_eq_some_iff]
    refine ⟨by simp, ?_, ?_, h⟩
    · rw [← hd]
      exact fun x hx => usizeToString_isDigit n x hx
    · rw [← hd]
      exact digitsVal_usizeToString n

end JsonExt

namespace JsonExt

theorem splitChars_ne_nil (sep : Char) (cs : List Char) : splitChars sep cs ≠ [] := by
  cases cs with
  | nil => simp [splitChars]
  | cons c cs => simp only [splitChars]; split <;> simp

theorem splitChars_no_sep (sep : Char) (l : List Char) (h : ∀ c ∈ l, c ≠ sep) :
    splitChars sep l = [l] := by
  induction l with
  | nil => rfl
  | cons c cs ih =>
    have hc : c ≠ sep := h c (List.mem_cons_self c cs)
    rw [splitChars]
    simp only [if_neg hc, ih (fun x hx => h x (List.mem_cons_of_mem c hx))]
    rfl

theorem splitChars_append (sep : Char) (l cs : List Char) (h : ∀ c ∈ l, c ≠ sep) :
    splitChars sep (l ++ cs)
      = (l ++ (splitChars sep cs).headD []) :: (splitChars sep cs).tail := by
  induction l with
  | nil =>
    simp only [List.nil_append]
    cases hsc : splitChars sep cs with
    | nil => exact absurd hsc (splitChars_ne_nil sep cs)
    | cons a t => simp
  | cons c l ih =>
    have hc : c ≠ sep := h c (List.mem_cons_self c l)
    rw [List.cons_append, splitChars]
    simp only [if_neg hc, ih (fun x hx => h x (List.mem_cons_of_mem c hx))]
    simp

theorem parseUsize_eq_some_iff (s : String) (n : Nat) :
    parseUsize s = some n ↔ usizeNumeral s n := by
  constructor
  · intro h
    unfold parseUsize at h
    cases hd : s.data with
    | nil => rw [hd] at h; exact Option.noConfusion h
    | cons c rest =>
      rw [hd] at h
      have h2 : parseUsizeDigits (if c = '+' then rest else c :: rest) = some n := h
      by_cases hc : c = '+'
      · rw [if_pos hc] at h2
        obtain ⟨hne, hdig, hval, hlt⟩ := (parseUsizeDigits_eq_some_iff rest n).mp h2
        exact ⟨rest, Or.inr (by rw [hd, hc]), hne, hdig, hval, hlt⟩
      · rw [if_neg hc] at h2
        obtain ⟨hne, hdig, hval, hlt⟩ := (parseUsizeDigits_eq_some_iff (c :: rest) n).mp h2
        exact ⟨c :: rest, Or.inl hd, hne, hdig, hval, hlt⟩
  · rintro ⟨ds, hdisj, hne, hdig, hval, hlt⟩
    unfold parseUsize
    rcases hdisj with hd | hd
    · cases hds : ds with
      | nil => exact absurd hds hne
      | cons c rest =>
        rw [hd, hds]
        have hc : c ≠ '+' :=
          isDigit_ne_plus (hdig c (by rw [hds]; exact List.mem_cons_self c rest))
        show parseUsizeDigits (if c = '+' then rest else c :: rest) = some n
        rw [if_neg hc, ← hds]
        exact (parseUsizeDigits_eq_some_iff ds n).mpr ⟨hne, hdig, hval, hlt⟩
    · rw [hd]
      show parseUsizeDigits (if '+' = '+' then ds else '+' :: ds) = some n
      rw [if_pos rfl]
      exact (parseUsizeDigits_eq_some_iff ds n).mpr ⟨hne, hdig, hval, hlt⟩

theorem parseUsize_eq_none_iff (s : String) :
    parseUsize s = none ↔ ∀ n, ¬ usizeNumeral s n := by
  constructor
  · intro h n hn
    rw [← parseUsize_eq_some_iff] at hn
    rw [h] at hn
    exact Option.noConfusion hn
  · intro h
    cases hp : parseUsize s with
    | none => rfl
    | some n => exact absurd (parseUsize_eq_some_iff s n |>.mp hp) (h n)

end JsonExt

namespace JsonExt

theorem splitChars_cons_sep (sep : Char) (cs : List Char) :
    splitChars sep (sep :: cs) = [] :: splitChars sep cs := by
  simp [splitChars]

theorem pathToString_data (e : PathElement) (rest : List PathElement) :
    (pathToString (e :: rest)).data
      = '/' :: ((elementToString e).data ++ (pathToString rest).data) := by
  show ("/" ++ elementToString e ++ pathToString rest).data = _
  rw [String.data_append, String.data_append]
  rfl

theorem segmentToElement_plainKey (k : String) (hp : parseUsize k = none) (hq : k ≠ "@") :
    segmentToElement k = .key k := by
  simp [segmentToElement, hp, hq]

theorem pathFromString_plain (k : String) (hs : ∀ c ∈ k.data, c ≠ '/')
    (hp : parseUsize k = none) (hq : k ≠ "@") : pathFromString k = [.key k] := by
  unfold pathFromString
  rw [splitChars_no_sep '/' k.data hs]
  show [segmentToElement (String.mk k.data)] = [PathElement.key k]
  have hmk : String.mk k.data = k := rfl
  rw [hmk, segmentToElement_plainKey k hp hq]

theorem segmentToElement_elementToString (e : PathElement) (he : elemPlain e) :
    segmentToElement (elementToString e) = e := by
  cases e with
  | flatten => exact absurd he (by simp [elemPlain])
  | index i =>
    show segmentToElement (usizeToString i) = .index i
    unfold segmentToElement
    rw [parseUsize_usizeToString i he]
  | key k =>
    exact segmentToElement_plainKey k he.2.1 he.2.2

theorem elementToString_no_sep (e : PathElement) (he : elemPlain e) :
    ∀ c ∈ (elementToString e).data, c ≠ '/' := by
  cases e with
  | flatten => exact absurd he (by simp [elemPlain])
  | index i =>
    intro c hc heq
    have hd : c.isDigit = true := usizeToString_isDigit i c hc
    rw [heq] at hd
    exact absurd hd (by decide)
  | key k => exact he.1

theorem splitChars_pathToString_headD (rest : List PathElement) :
    (splitChars '/' (pathToString rest).data).headD [] = [] := by
  cases rest with
  | nil => rfl
  | cons e r =>
    rw [pathToString_data, splitChars_cons_sep]
    rfl

theorem pathFromString_pathToString (p : List PathElement) (h : ∀ e ∈ p, elemPlain e) :
    pathFromString (pathToString p) = PathElement.key "" :: p := by
  induction p with
  | nil => rfl
  | cons e rest ih =>
    have he : elemPlain e := h e (List.mem_cons_self e rest)
    have hrest : ∀ x ∈ rest, elemPlain x := fun x hx => h x (List.mem_cons_of_mem e hx)
    unfold pathFromString
    rw [pathToString_data, splitChars_cons_sep,
      splitChars_append '/' _ _ (elementToString_no_sep e he),
      splitChars_pathToString_headD]
    have hsplit : splitChars '/' (pathToString rest).data
        = [] :: (splitChars '/' (pathToString rest).data).tail := by
      cases hsc : splitChars '/' (pathToString rest).data with
      | nil => exact absurd hsc (splitChars_ne_nil _ _)
      | cons a t =>
        have hh := splitChars_pathToString_headD rest
        rw [hsc] at hh
        simp at hh
        rw [hh]
        rfl
    have ihx := ih hrest
    unfold pathFromString at ihx
    rw [hsplit] at ihx
    simp only [List.map] at ihx ⊢
    have htail := (List.cons.injEq _ _ _ _).mp ihx |>.2
    rw [htail]
    have hempty : segmentToElement (String.mk []) = .key "" := by decide
    rw [hempty]
    have hmk : String.mk ((elementToString e).data ++ []) = elementToString e := by
      rw [List.append_nil]
    rw [hmk, segmentToElement_elementToString e he]

end JsonExt

namespace JsonExt

theorem mergeElems_eq (a : List Value) :
    ∀ b, mergeElems a b
      = List.zipWith deepMerge a b
        ++ a.drop (min a.length b.length) ++ b.drop (min a.length b.length) := by
  induction a with
  | nil =>
    intro b
    cases b <;> simp [mergeElems]
  | cons x as ih =>
    intro b
    cases b with
    | nil => simp [mergeElems]
    | cons y bs =>
      simp only [mergeElems, ih bs, List.zipWith_cons_cons, List.length_cons,
        Nat.succ_min_succ, List.drop_succ_cons, List.cons_append]

theorem fromPathGo_flatten_trunc (pre : List PathElement) :
    ∀ current rest leaf leaf2,
      fromPathGo current (pre ++ PathElement.flatten :: rest) leaf
        = fromPathGo current (pre ++ [PathElement.flatten]) leaf2 := by
  induction pre with
  | nil =>
    intro current rest leaf leaf2
    rfl
  | cons e pre ih =>
    intro current rest leaf leaf2
    cases e with
    | flatten => rfl
    | index i =>
      cases current with
      | arr a =>
        simp only [List.cons_append, fromPathGo, List.append_eq]
        rw [ih]
      | null =>
        simp only [List.cons_append, fromPathGo, List.append_eq]
        rw [ih]
      | bool b => rfl
      | num n => rfl
      | str s => rfl
      | obj o => rfl
    | key k =>
      simp only [List.cons_append, fromPathGo, List.append_eq]
      rw [ih]

end JsonExt

namespace JsonExt

theorem entriesOrdEq_imp_eq_aux :
    ∀ (as bs : List (String × Value)),
      (∀ k v, (k, v) ∈ as → ∀ b : Value, eqAndOrdered v b = true → v = b) →
      entriesOrdEq as bs = true → as = bs := by
  intro as
  induction as with
  | nil =>
    intro bs _ h
    cases bs with
    | nil => rfl
    | cons q t => simp [entriesOrdEq] at h
  | cons p as ih =>
    intro bs IH h
    cases bs with
    | nil =>
      obtain ⟨k, v⟩ := p
      simp [entriesOrdEq] at h
    | cons q bs =>
      obtain ⟨k, v⟩ := p
      obtain ⟨k', v'⟩ := q
      simp only [entriesOrdEq, Bool.and_eq_true, beq_iff_eq] at h
      obtain ⟨⟨hk, hv⟩, ht⟩ := h
      have hveq : v = v' := IH k v (List.mem_cons_self _ _) v' hv
      have hrest : as = bs :=
        ih bs (fun k2 v2 hm => IH k2 v2 (List.mem_cons_of_mem _ hm)) ht
      rw [hk, hveq, hrest]

theorem elemsOrdEq_imp_eq_aux :
    ∀ (as bs : List Value),
      (∀ v ∈ as, ∀ b : Value, eqAndOrdered v b = true → v = b) →
      elemsOrdEq as bs = true → as = bs := by
  intro as
  induction as with
  | nil =>
    intro bs _ h
    cases bs with
    | nil => rfl
    | cons q t => simp [elemsOrdEq] at h
  | cons v as ih =>
    intro bs IH h
    cases bs with
    | nil => simp [elemsOrdEq] at h
    | cons w bs =>
      simp only [elemsOrdEq, Bool.and_eq_true] at h
      obtain ⟨hv, ht⟩ := h
      rw [IH v (List.mem_cons_self _ _) w hv,
        ih bs (fun v2 hm => IH v2 (List.mem_cons_of_mem _ hm)) ht]

theorem eqAndOrdered_imp_eq (a b : Value) (h : eqAndOrdered a b = true) : a = b := by
  cases a with
  | null =>
    cases b <;> simp_all [eqAndOrdered, valueEq]
  | bool x =>
    cases b <;> simp_all [eqAndOrdered, valueEq]
  | num x =>
    cases b <;> simp_all [eqAndOrdered, valueEq]
  | str x =>
    cases b <;> simp_all [eqAndOrdered, valueEq]
  | arr xs =>
    cases b with
    | arr ys =>
      simp only [eqAndOrdered] at h
      rw [elemsOrdEq_imp_eq_aux xs ys
        (fun v hv c hc => eqAndOrdered_imp_eq v c hc) h]
    | null => simp_all [eqAndOrdered, valueEq]
    | bool y => simp_all [eqAndOrdered, valueEq]
    | num y => simp_all [eqAndOrdered, valueEq]
    | str y => simp_all [eqAndOrdered, valueEq]
    | obj ys => simp_all [eqAndOrdered, valueEq]
  | obj xs =>
    cases b with
    | obj ys =>
      simp only [eqAndOrdered] at h
      rw [entriesOrdEq_imp_eq_aux xs ys
        (fun k v hkv c hc => eqAndOrdered_imp_eq v c hc) h]
    | null => simp_all [eqAndOrdered, valueEq]
    | bool y => simp_all [eqAndOrdered, valueEq]
    | num y => simp_all [eqAndOrdered, valueEq]
    | str y => simp_all [eqAndOrdered, valueEq]
    | arr ys => simp_all [eqAndOrdered, valueEq]
termination_by sizeOf a
decreasing_by
  all_goals subst_vars
  all_goals simp_wf
  · have h1 := List.sizeOf_lt_of_mem hv
    omega
  · have h1 := List.sizeOf_lt_of_mem hkv
    simp only [Prod.mk.sizeOf_spec] at h1
    omega

end JsonExt

namespace JsonExt

theorem lookupVal_of_mem :
    ∀ (fields : List (String × Value)) (k : String) (v : Value),
      distinctKeys (fields.map Prod.fst) = true → (k, v) ∈ fields →
      lookupVal fields k = some v := by
  intro fields
  induction fields with
  | nil =>
    intro k v _ hm
    simp at hm
  | cons p tl ih =>
    intro k v hd hm
    obtain ⟨k0, v0⟩ := p
    simp only [List.map_cons, distinctKeys, Bool.and_eq_true, Bool.not_eq_eq_eq_not,
      Bool.not_true] at hd
    obtain ⟨hnc, hdt⟩ := hd
    rcases List.mem_cons.mp hm with heq | hmem
    · cases heq
      simp [lookupVal]
    · have hk0 : k0 ≠ k := by
        intro he
        subst he
        simp [List.contains, List.elem_eq_mem] at hnc
        exact absurd hmem (hnc v)
      simp [lookupVal, hk0, ih k v hdt hmem]

end JsonExt

namespace JsonExt

theorem wfFields_mem :
    ∀ (fields : List (String × Value)) (k : String) (v : Value),
      wfFields fields = true → (k, v) ∈ fields → wellFormed v = true := by
  intro fields
  induction fields with
  | nil =>
    intro k v _ hm
    simp at hm
  | cons p tl ih =>
    intro k v hw hm
    obtain ⟨k0, v0⟩ := p
    simp only [wfFields, Bool.and_eq_true] at hw
    rcases List.mem_cons.mp hm with heq | hmem
    · cases heq
      exact hw.1
    · exact ih k v hw.2 hmem

theorem wfList_mem :
    ∀ (xs : List Value) (v : Value), wfList xs = true → v ∈ xs → wellFormed v = true := by
  intro xs
  induction xs with
  | nil =>
    intro v _ hm
    simp at hm
  | cons x tl ih =>
    intro v hw hm
    simp only [wfList, Bool.and_eq_true] at hw
    rcases List.mem_cons.mp hm with heq | hmem
    · rw [heq]
      exact hw.1
    · exact ih v hw.2 hmem

theorem arrEq_refl_aux :
    ∀ (xs : List Value), (∀ v ∈ xs, valueEq v v = true) → arrEq xs xs = true := by
  intro xs
  induction xs with
  | nil => simp [arrEq]
  | cons x tl ih =>
    intro IH
    simp only [arrEq, Bool.and_eq_true]
    exact ⟨IH x (List.mem_cons_self _ _),
      ih (fun v hv => IH v (List.mem_cons_of_mem _ hv))⟩

theorem objIncl_refl_aux :
    ∀ (pre fields : List (String × Value)),
      (∀ k v, (k, v) ∈ pre → valueEq v v = true) →
      (∀ k v, (k, v) ∈ pre → lookupVal fields k = some v) →
      objIncl pre fields = true := by
  intro pre
  induction pre with
  | nil =>
    intro fields _ _
    simp [objIncl]
  | cons p tl ih =>
    intro fields IH hl
    obtain ⟨k, v⟩ := p
    simp only [objIncl, Bool.and_eq_true]
    constructor
    · rw [hl k v (List.mem_cons_self _ _)]
      exact IH k v (List.mem_cons_self _ _)
    · exact ih fields (fun k2 v2 hm => IH k2 v2 (List.mem_cons_of_mem _ hm))
        (fun k2 v2 hm => hl k2 v2 (List.mem_cons_of_mem _ hm))

theorem valueEq_refl (v : Value) (h : wellFormed v = true) : valueEq v v = true := by
  cases v with
  | null => simp [valueEq]
  | bool b => simp [valueEq]
  | num n => simp [valueEq]
  | str s => simp [valueEq]
  | arr xs =>
    simp only [wellFormed] at h
    simp only [valueEq]
    exact arrEq_refl_aux xs (fun w hw => valueEq_refl w (wfList_mem xs w h hw))
  | obj fields =>
    simp only [wellFormed, Bool.and_eq_true] at h
    obtain ⟨hd, hf⟩ := h
    simp only [valueEq, Bool.and_eq_true]
    refine ⟨by simp, ?_⟩
    exact objIncl_refl_aux fields fields
      (fun k w hkw => valueEq_refl w (wfFields_mem fields k w hf hkw))
      (fun k w hkw => lookupVal_of_mem fields k w hd hkw)
termination_by sizeOf v
decreasing_by
  all_goals subst_vars
  all_goals simp_wf
  · have h1 := List.sizeOf_lt_of_mem hw
    omega
  · have h1 := List.sizeOf_lt_of_mem hkw
    simp only [Prod.mk.sizeOf_spec] at h1
    omega

end JsonExt

namespace JsonExt

/-- Claim C1 (code evaluation at the failing input): inserting the value 7
at path a/2 into the empty Object does not succeed with
a: [null, null, 7] as the spec claims; the Key branch of insert on an
existing Object calls get_mut(k).expect(...) and panics because key "a" is
absent.  The second conjunct shows the Null branch of the same function
does create the missing containers, as the spec describes. -/
theorem c1_insert_into_empty_object_panics :
    insert (Value.obj []) (pathFromString "a/2") (Value.num 7) = InsertResult.panicked
    ∧ insert Value.null (pathFromString "a/2") (Value.num 7)
        = InsertResult.ok (Value.obj [("a", Value.arr [Value.null, Value.null, Value.num 7])]) :=
  ⟨rfl, rfl⟩

/-- Claim C2 (counterexample): the parse/render round-trip already fails on
the single-element path [Key "a"]: its rendering is "/a", and parsing "/a"
splits off a leading empty segment, yielding [Key "", Key "a"]. -/
theorem c2_roundtrip_counterexample :
    pathFromString (pathToString [PathElement.key "a"]) ≠ [PathElement.key "a"]
    ∧ pathFromString (pathToString [PathElement.key "a"])
        = [PathElement.key "", PathElement.key "a"] := by
  constructor
  · decide
  · decide

/-- Claim C2 (amended): for a Path p built only from Key and Index elements
whose rendered segments contain no '/', where additionally no Key segment
parses as a usize numeral or equals "@" (and every Index fits in a usize),
parsing the rendering of p yields p with one extra leading Key "" element
(the rendering starts with '/', so the split produces a leading empty
segment): parse(to_string(p)) = Key "" :: p. -/
theorem c2_roundtrip_amended (p : List PathElement) (h : ∀ e ∈ p, elemPlain e) :
    pathFromString (pathToString p) = PathElement.key "" :: p :=
  pathFromString_pathToString p h

theorem c2_roundtrip_witness :
    pathFromString (pathToString [PathElement.key "a", PathElement.index 3])
      = [PathElement.key "", PathElement.key "a", PathElement.index 3] :=
  c2_roundtrip_amended [PathElement.key "a", PathElement.index 3] (by decide)

/-- Claim C3 (counterexample): the segment "+0" does not match ^[0-9]+$,
yet Path::from_slice turns it into an Index (Rust's usize parsing accepts a
leading '+'), not into the Key "+0" the claim requires. -/
theorem c3_segment_counterexample :
    pathFromSlice ["+0"] = [PathElement.index 0]
    ∧ matchesDigitsOnly "+0" = false
    ∧ pathFromSlice ["+0"] ≠ [PathElement.key "+0"] := by
  refine ⟨rfl, rfl, ?_⟩
  decide

/-- Claim C3 (amended): a parsed segment becomes Index(n) iff it is a usize
numeral, i.e. an optional leading '+' followed by one or more ASCII digits
of value n with n < 2^64 (so "+0" is an Index and a 20-digit overflowing
numeral is not); it becomes Flatten iff it is exactly "@"; and it becomes
Key(segment) in every other case. -/
theorem c3_segment_amended (s : String) :
    (∀ n, segmentToElement s = .index n ↔ usizeNumeral s n)
    ∧ (segmentToElement s = .flatten ↔ s = "@")
    ∧ ((∀ n, ¬ usizeNumeral s n) → s ≠ "@" → segmentToElement s = .key s) := by
  unfold segmentToElement
  cases hp : parseUsize s with
  | some m =>
    refine ⟨fun n => ⟨fun he => ?_, fun hn => ?_⟩, ⟨fun he => ?_, fun he => ?_⟩,
      fun hall _ => ?_⟩
    · cases he
      exact (parseUsize_eq_some_iff s m).mp hp
    · have h2 := (parseUsize_eq_some_iff s n).mpr hn
      rw [hp] at h2
      cases h2
      rfl
    · exact absurd he (by simp)
    · subst he
      rw [show parseUsize "@" = none from by decide] at hp
      exact Option.noConfusion hp
    · exact absurd ((parseUsize_eq_some_iff s m).mp hp) (hall m)
  | none =>
    by_cases hq : s = "@"
    · simp only [if_pos hq]
      refine ⟨fun n => ⟨fun he => ?_, fun hn => ?_⟩, ⟨fun _ => hq, fun _ => by trivial⟩,
        fun _ hne => ?_⟩
      · exact absurd he (by simp)
      · have h2 := (parseUsize_eq_some_iff s n).mpr hn
        rw [hp] at h2
        exact Option.noConfusion h2
      · exact absurd hq hne
    · simp only [if_neg hq]
      refine ⟨fun n => ⟨fun he => ?_, fun hn => ?_⟩, ⟨fun he => ?_, fun he => ?_⟩,
        fun _ _ => by trivial⟩
      · exact absurd he (by simp)
      · have h2 := (parseUsize_eq_some_iff s n).mpr hn
        rw [hp] at h2
        exact Option.noConfusion h2
      · exact absurd he (by simp)
      · exact absurd he hq

theorem c3_segment_witness : segmentToElement "x" = .key "x" :=
  (c3_segment_amended "x").2.2
    ((parseUsize_eq_none_iff "x").mp (by decide)) (by decide)

/-- Claim C4: the read traversal never fails (it is a total function); on a
Flatten element over a non-Array it yields nothing, on an Array it descends
into every element once each in array order; and on the root
a: [p: 1, p: 2] with path a/@/p it yields exactly the two values 1
then 2, with the resolved paths a/0/p and a/1/p. -/
theorem c4_traversal_flatten :
    (∀ parent rest data, asArray data = none →
      iteratePath parent (PathElement.flatten :: rest) data = [])
    ∧ (∀ parent rest xs,
        iteratePath parent (PathElement.flatten :: rest) (Value.arr xs)
          = xs.enum.flatMap (fun iv =>
              iteratePath (parent ++ pathFromString (usizeToString iv.fst)) rest iv.snd))
    ∧ selectValuesAndPaths
        (Value.obj [("a", Value.arr [Value.obj [("p", Value.num 1)],
          Value.obj [("p", Value.num 2)]])])
        (pathFromString "a/@/p")
      = [([PathElement.key "a", PathElement.index 0, PathElement.key "p"], Value.num 1),
         ([PathElement.key "a", PathElement.index 1, PathElement.key "p"], Value.num 2)] := by
  refine ⟨?_, fun parent rest xs => rfl, rfl⟩
  intro parent rest data h
  simp [iteratePath, h]

theorem c4_traversal_witness :
    iteratePath [] [PathElement.flatten] (Value.num 3) = [] :=
  c4_traversal_flatten.1 [] [] (Value.num 3) rfl

/-- Claim C5: in the write operation, a Flatten element only asserts shape:
a Null current node is replaced by an empty Array, an Array is left
unchanged, and any other shape yields the PathConflict-kind error with
reason "expected an array"; there is no fan-out — the remaining path
elements continue against the array container itself. -/
theorem c5_insert_flatten (rest : List PathElement) (value : Value) :
    insert Value.null (PathElement.flatten :: rest) value
        = insert (Value.arr []) rest value
    ∧ (∀ xs, insert (Value.arr xs) (PathElement.flatten :: rest) value
        = insert (Value.arr xs) rest value)
    ∧ (∀ v : Value, isNull v = false → isArrayV v = false →
        insert v (PathElement.flatten :: rest) value
          = InsertResult.err (FetchError.executionPathNotFound "expected an array")) := by
  refine ⟨rfl, fun xs => rfl, fun v h1 h2 => ?_⟩
  simp [insert, h1, h2]

theorem c5_insert_flatten_witness :
    insert (Value.num 2) [PathElement.flatten] (Value.num 1)
      = InsertResult.err (FetchError.executionPathNotFound "expected an array") :=
  (c5_insert_flatten [] (Value.num 1)).2.2 (Value.num 2) rfl rfl

/-- Claim C6: sparse construction stops the moment it reaches a Flatten
element: the result does not depend on the remaining path nor on the leaf
value (both are discarded, and the leaf is never placed); in particular
build("a/@/b", 5) yields the object a: null. -/
theorem c6_from_path_flatten_truncation :
    (∀ pre current rest leaf leaf2,
      fromPathGo current (pre ++ PathElement.flatten :: rest) leaf
        = fromPathGo current (pre ++ [PathElement.flatten]) leaf2)
    ∧ fromPath (pathFromString "a/@/b") (Value.num 5)
        = some (Value.obj [("a", Value.null)]) :=
  ⟨fun pre current rest leaf leaf2 => fromPathGo_flatten_trunc pre current rest leaf leaf2,
    rfl⟩

/-- Claim C7: deep_merge of Array into Array merges the overlapping prefix
of min(len(self), len(other)) elements element-wise, keeps self's overflow
in place and appends other's overflow; the spec's concrete merge example
evaluates as stated. -/
theorem c7_deep_merge_arrays :
    (∀ a b : List Value,
      deepMerge (Value.arr a) (Value.arr b)
        = Value.arr (List.zipWith deepMerge a b
            ++ a.drop (min a.length b.length) ++ b.drop (min a.length b.length)))
    ∧ deepMerge
        (Value.obj [("obj", Value.obj [("arr", Value.arr [Value.obj [("p1", Value.num 1)],
          Value.obj [("p2", Value.num 2)]])])])
        (Value.obj [("obj", Value.obj [("arr",
          Value.arr [Value.obj [("p1", Value.num 2), ("p3", Value.num 3)],
            Value.obj [("p4", Value.num 4)]])])])
      = Value.obj [("obj", Value.obj [("arr",
          Value.arr [Value.obj [("p1", Value.num 2), ("p3", Value.num 3)],
            Value.obj [("p2", Value.num 2), ("p4", Value.num 4)]])])] := by
  constructor
  · intro a b
    rw [show deepMerge (Value.arr a) (Value.arr b) = Value.arr (mergeElems a b) from
      by simp [deepMerge]]
    rw [mergeElems_eq]
  · simp [deepMerge, mergeEntries, insertEntry, mergeElems]

/-- Claim C8: deep_merge is a total function (the embedding returns a Value
for every pair, with no error outcome), and on the structural conflicts
Object times Array and Array times Object it leaves self entirely
unchanged; the conflict diagnostic, modelled from the spec, is a non-fatal
no-op on the value. -/
theorem c8_merge_conflict_keeps_self :
    ∀ (fields : List (String × Value)) (xs : List Value),
      deepMerge (Value.obj fields) (Value.arr xs) = Value.obj fields
      ∧ deepMerge (Value.arr xs) (Value.obj fields) = Value.arr xs := by
  intro fields xs
  constructor <;> simp [deepMerge]

/-- Claim C9 (counterexample): the resolved path is extended by the parse
of the key, not by Key(k) itself: descending into key "2" of an object
extends the resolved path with Index(2). -/
theorem c9_resolved_path_counterexample :
    selectValuesAndPaths (Value.obj [("2", Value.num 42)]) [PathElement.key "2"]
      = [([PathElement.index 2], Value.num 42)]
    ∧ [PathElement.index 2] ≠ [PathElement.key "2"] :=
  ⟨rfl, by decide⟩

/-- Claim C9 (amended): when a Key(k) element descends into key k of an
Object, the resolved path is extended with Path::from(k), the re-parse of
the key text; this equals the single element Key(k) exactly when k
contains no '/', does not parse as a usize numeral, and is not "@". -/
theorem c9_resolved_path_amended (parent : List PathElement) (k : String)
    (rest : List PathElement) (fields : List (String × Value)) (v : Value)
    (hv : lookupVal fields k = some v) (hs : ∀ c ∈ k.data, c ≠ '/')
    (hp : parseUsize k = none) (hq : k ≠ "@") :
    iteratePath parent (PathElement.key k :: rest) (Value.obj fields)
      = iteratePath (parent ++ [PathElement.key k]) rest v := by
  simp only [iteratePath, hv]
  rw [pathFromString_plain k hs hp hq]

theorem c9_resolved_path_witness :
    iteratePath [] [PathElement.key "a"] (Value.obj [("a", Value.num 1)])
      = iteratePath [PathElement.key "a"] [] (Value.num 1) :=
  c9_resolved_path_amended [] "a" [] [("a", Value.num 1)] (Value.num 1)
    rfl (by decide) (by decide) (by decide)

/-- Claim C10: eq_and_ordered refines ordinary equality: whenever
eq_and_ordered holds of a well-formed value (object keys unique, the
invariant the Rust map type guarantees) and any other value, the ordinary
order-insensitive structural equality == holds as well. -/
theorem c10_eq_and_ordered_refines_eq (a b : Value)
    (hw : wellFormed a = true) (he : eqAndOrdered a b = true) :
    valueEq a b = true := by
  rw [← eqAndOrdered_imp_eq a b he]
  exact valueEq_refl a hw

theorem c10_witness :
    valueEq (Value.arr [Value.num 1, Value.str "s"])
      (Value.arr [Value.num 1, Value.str "s"]) = true :=
  c10_eq_and_ordered_refines_eq _ _
    (by simp [wellFormed, wfList])
    (by simp [eqAndOrdered, elemsOrdEq, valueEq])

end JsonExt
